import Mathlib

/-!
Verification of the XMLParser transformation pipeline.

Shallow embedding of the Python module `XMLParser.py`.  Python dictionaries
preserve insertion order and have unique keys; we model a dictionary as an
insertion-ordered association list `List (String × PValue)` together with the
Python assignment primitive `dinsert` (assigning to an existing key replaces
its value in place, assigning to a fresh key appends at the end).  Dict
comprehensions in the source are modelled as left folds of `dinsert`, which is
exactly how CPython evaluates them.  Python `str.lower` and `str.capitalize`
are modelled ASCII-faithfully (all strings in this module are ASCII).
-/

/-- The recursive value type of the parsed data: a Python dict
(insertion-ordered association list), a Python list, or a string leaf. -/
inductive PValue where
  | dict : List (String × PValue) → PValue
  | list : List PValue → PValue
  | str : String → PValue

abbrev Entries := List (String × PValue)

mutual
/-- Boolean structural equality on parsed values. -/
def PValue.beq : PValue → PValue → Bool
  | .str a, .str b => a == b
  | .list a, .list b => beqList a b
  | .dict a, .dict b => beqEntries a b
  | _, _ => false

def beqList : List PValue → List PValue → Bool
  | [], [] => true
  | a :: as, b :: bs => PValue.beq a b && beqList as bs
  | _, _ => false

def beqEntries : Entries → Entries → Bool
  | [], [] => true
  | a :: as, b :: bs => (a.1 == b.1) && PValue.beq a.2 b.2 && beqEntries as bs
  | _, _ => false
end

/-- Structural induction principle for the nested value type. -/
theorem PValue.inductionOn (P : PValue → Prop)
    (hs : ∀ s, P (.str s))
    (hl : ∀ l, (∀ v ∈ l, P v) → P (.list l))
    (hd : ∀ d, (∀ kv ∈ d, P kv.2) → P (.dict d)) :
    ∀ v, P v
  | .str s => hs s
  | .list l => hl l (fun v hv => PValue.inductionOn P hs hl hd v)
  | .dict d => hd d (fun kv hkv => PValue.inductionOn P hs hl hd kv.2)
termination_by v => sizeOf v
decreasing_by
  · have h1 := List.sizeOf_lt_of_mem hv
    simp only [PValue.list.sizeOf_spec]
    omega
  · have h1 := List.sizeOf_lt_of_mem hkv
    have h2 : sizeOf kv.2 < sizeOf kv := by
      cases kv
      simp only [Prod.mk.sizeOf_spec]
      omega
    simp only [PValue.dict.sizeOf_spec]
    omega

theorem PValue.beq_iff : ∀ a b : PValue, (PValue.beq a b = true) ↔ a = b := by
  intro a
  induction a using PValue.inductionOn with
  | hs s =>
    intro b
    cases b <;> simp [PValue.beq]
  | hl l ih =>
    intro b
    cases b with
    | str s => simp [PValue.beq]
    | dict d => simp [PValue.beq]
    | list l2 =>
      simp only [PValue.beq, PValue.list.injEq]
      induction l generalizing l2 with
      | nil => cases l2 <;> simp [beqList]
      | cons a as ihl =>
        cases l2 with
        | nil => simp [beqList]
        | cons b bs =>
          simp only [beqList, Bool.and_eq_true, List.cons.injEq]
          rw [ih a (by simp) b, ihl (fun v hv => ih v (by simp [hv])) bs]
  | hd d ih =>
    intro b
    cases b with
    | str s => simp [PValue.beq]
    | list l => simp [PValue.beq]
    | dict d2 =>
      simp only [PValue.beq, PValue.dict.injEq]
      induction d generalizing d2 with
      | nil => cases d2 <;> simp [beqEntries]
      | cons a as ihd =>
        cases d2 with
        | nil => simp [beqEntries]
        | cons b bs =>
          simp only [beqEntries, Bool.and_eq_true, List.cons.injEq, beq_iff_eq]
          rw [ih a (by simp) b.2, ihd (fun kv hkv => ih kv (by simp [hkv])) bs]
          constructor
          · rintro ⟨⟨h1, h2⟩, h3⟩
            exact ⟨Prod.ext h1 h2, h3⟩
          · rintro ⟨h12, h3⟩
            cases a
            cases b
            cases h12
            exact ⟨⟨rfl, rfl⟩, h3⟩

instance : DecidableEq PValue := fun a b =>
  decidable_of_iff (PValue.beq a b = true) (PValue.beq_iff a b)

/-- Python `k in d` for a dict. -/
def containsKey (k : String) (d : Entries) : Bool :=
  d.any (fun kv => kv.1 == k)

/-- Python `d[k]` / `d.get(k)`: value of the first entry with key `k`. -/
def dictLookup (k : String) : Entries → Option PValue
  | [] => none
  | kv :: rest => if kv.1 = k then some kv.2 else dictLookup k rest

/-- Python `d[k] = v`: replace the value at `k` in place if the key is
present, otherwise append the new pair at the end. -/
def dinsert (d : Entries) (k : String) (v : PValue) : Entries :=
  if containsKey k d then d.map (fun kv => if kv.1 = k then (k, v) else kv)
  else d ++ [(k, v)]

/-- Python `d.pop(k)` (the removal part): drop the first entry with key `k`. -/
def eraseKey (k : String) : Entries → Entries
  | [] => []
  | kv :: rest => if kv.1 = k then rest else kv :: eraseKey k rest

/-- The left-brace character (written via its code point). -/
def lbrace : Char := Char.ofNat 123

/-- The right-brace character (written via its code point). -/
def rbrace : Char := Char.ofNat 125

/-- Scanner for one attempted match of the regular expression fragment
after a left brace: skip forward to the first closing brace, failing on a
newline (the dot of the pattern does not match a newline) or at the end of
the input.  Returns the characters after the closing brace. -/
def findClose : List Char → Option (List Char)
  | [] => none
  | c :: rest =>
    if c = rbrace then some rest
    else if c = '\n' then none
    else findClose rest

theorem findClose_length {cs rem : List Char} (h : findClose cs = some rem) :
    rem.length < cs.length := by
  induction cs with
  | nil => simp [findClose] at h
  | cons c rest ih =>
    unfold findClose at h
    split at h
    · injection h with h
      subst h
      simp
    · split at h
      · exact absurd h (by simp)
      · have := ih h
        simp only [List.length_cons]
        omega

/-- Model of `re.sub(pattern, empty, tag)` for the brace pattern: scan left
to right; at a left brace try to match up to the first closing brace and
delete the whole match, otherwise keep the character and move on.  The fuel
argument only bounds the number of scan steps (each step consumes at least
one character, so any fuel at least the length of the input is exact); it
keeps the recursion structural so that the function evaluates by kernel
reduction. -/
def stripNsFuel : Nat → List Char → List Char
  | _, [] => []
  | 0, l => l
  | fuel + 1, c :: rest =>
    if c = lbrace then
      match findClose rest with
      | some rem => stripNsFuel fuel rem
      | none => c :: stripNsFuel fuel rest
    else c :: stripNsFuel fuel rest

/-- The brace-deletion scan at its exact fuel. -/
def stripNsChars (l : List Char) : List Char :=
  stripNsFuel l.length l

/-- `XMLParser.strip_namespace`: removes all brace-enclosed substrings from
an XML tag via the global substitution above. -/
def strip_namespace (tag : String) : String :=
  ⟨stripNsChars tag.data⟩

/-- An element tree node as exposed by the external XML parser: a qualified
tag, an optional text, and an ordered list of children. -/
inductive XElem where
  | mk (tag : String) (text : Option String) (children : List XElem)

def XElem.tag : XElem → String
  | .mk t _ _ => t

def XElem.text : XElem → Option String
  | .mk _ t _ => t

def XElem.children : XElem → List XElem
  | .mk _ _ c => c

/-- ASCII model of Python `str.strip`: drop leading and trailing whitespace
characters. -/
def pyStrip (s : String) : String :=
  ⟨((s.data.dropWhile Char.isWhitespace).reverse.dropWhile Char.isWhitespace).reverse⟩

/-- ASCII model of Python `str.lower`: lowercase every character. -/
def pyLower (s : String) : String :=
  ⟨s.data.map Char.toLower⟩

/-- The leaf text rule of the extractor: `child.text.strip() if child.text
else empty`.  A missing text yields the empty string; otherwise the text is
stripped of surrounding whitespace. -/
def XElem.textValue (c : XElem) : String :=
  match c.text with
  | some t => pyStrip t
  | none => ""

mutual
/-- Inner `parse_element` of `parse_xml_to_dict`: recursively parses an XML
element and its children, stripping namespaces. -/
def parse_element : XElem → PValue
  | .mk _ _ children => PValue.dict (parse_children children [])

/-- The loop body of `parse_element`: fold the children into a dict, each
child contributing its recursive parse when it has children and its stripped
text otherwise. -/
def parse_children : List XElem → Entries → Entries
  | [], acc => acc
  | c :: rest, acc =>
    let v := if c.children.isEmpty then PValue.str c.textValue else parse_element c
    parse_children rest (dinsert acc (strip_namespace c.tag) v)
end

theorem parse_element_def (e : XElem) :
    parse_element e = PValue.dict (parse_children e.children []) := by
  cases e
  rfl

/-- The value the extractor assigns to one child: recursive parse for a
container, stripped text for a leaf. -/
def childValue (c : XElem) : PValue :=
  if c.children.isEmpty then PValue.str c.textValue else parse_element c

mutual
/-- `root.iter()`: all nodes of the tree in document order (preorder). -/
def iterElems : XElem → List XElem
  | .mk tag text children => .mk tag text children :: iterChildren children

def iterChildren : List XElem → List XElem
  | [] => []
  | c :: rest => iterElems c ++ iterChildren rest
end

/-- The extraction loop of `parse_xml_to_dict`: for each requested parent
name, the first node in document order whose stripped tag equals the name is
parsed and stored; a name with no matching node is skipped. -/
def extractParents (root : XElem) : List String → Entries → Entries
  | [], acc => acc
  | p :: rest, acc =>
    match (iterElems root).find? (fun e => strip_namespace e.tag == p) with
    | some e => extractParents root rest (dinsert acc p (parse_element e))
    | none => extractParents root rest acc

/-- `XMLParser.parse_xml_to_dict`, taken from the already parsed element
tree (parsing the raw XML text is the external collaborator). -/
def parse_xml_to_dict (root : XElem) (parent_elements : List String) : Entries :=
  extractParents root parent_elements []

mutual
/-- Inner `recursive_remove` of `remove_keys`: rebuild each dict without the
excluded keys, recurse into lists, pass leaves through. -/
def recursive_remove (keys_to_remove : List String) : PValue → PValue
  | .dict d => .dict (removeEntries keys_to_remove d [])
  | .list l => .list (removeList keys_to_remove l)
  | .str s => .str s
termination_by structural v => v

/-- The dict comprehension of `recursive_remove` as a fold. -/
def removeEntries (keys_to_remove : List String) : Entries → Entries → Entries
  | [], acc => acc
  | kv :: rest, acc =>
    if keys_to_remove.contains kv.1 then removeEntries keys_to_remove rest acc
    else removeEntries keys_to_remove rest
      (dinsert acc kv.1 (recursive_remove keys_to_remove kv.2))
termination_by structural l => l

/-- The list comprehension of `recursive_remove`. -/
def removeList (keys_to_remove : List String) : List PValue → List PValue
  | [] => []
  | v :: rest => recursive_remove keys_to_remove v :: removeList keys_to_remove rest
termination_by structural l => l
end

/-- `XMLParser.remove_keys`: apply `recursive_remove` to the value of every
parent entry of the working structure (the parent keys themselves are never
filtered). -/
def remove_keys (keys_to_remove : List String) (parsed_data : Entries) : Entries :=
  parsed_data.map (fun kv => (kv.1, recursive_remove keys_to_remove kv.2))

mutual
/-- Inner `recursive_parse` of `flatten_nested_keys`. -/
def recursive_parse (nested_key value_key : String) : PValue → PValue
  | .dict d => .dict (flattenEntries nested_key value_key d [])
  | .list l => .list (flattenList nested_key value_key l)
  | .str s => .str s
termination_by structural v => v

/-- The loop of `recursive_parse` over the items of a dict.  A pair whose
value is a dict containing `nested_key` is rebuilt under the promoted key:
the `nested_key` entry is popped, and if exactly one entry remains and its
key is `value_key` the stored value collapses to that single value,
otherwise the remaining dict is stored as is.  In both cases the stored
value is NOT recursed into.  Every other pair keeps its key and recurses
into its value.  When the promoted key is not a string, CPython would raise
a TypeError at the dict assignment (dicts and lists are unhashable); per the
spec (§7) that malformed input passes the pair through unmodified. -/
def flattenEntries (nested_key value_key : String) : Entries → Entries → Entries
  | [], acc => acc
  | kv :: rest, acc =>
    match kv.2 with
    | .dict vd =>
      match dictLookup nested_key vd with
      | some (.str newKey) =>
        match eraseKey nested_key vd with
        | [kv1] =>
          if kv1.1 = value_key then
            flattenEntries nested_key value_key rest (dinsert acc newKey kv1.2)
          else
            flattenEntries nested_key value_key rest
              (dinsert acc newKey (.dict (eraseKey nested_key vd)))
        | _ =>
          flattenEntries nested_key value_key rest
            (dinsert acc newKey (.dict (eraseKey nested_key vd)))
      | some _ => flattenEntries nested_key value_key rest (dinsert acc kv.1 kv.2)
      | none =>
        flattenEntries nested_key value_key rest
          (dinsert acc kv.1 (recursive_parse nested_key value_key kv.2))
    | _ =>
      flattenEntries nested_key value_key rest
        (dinsert acc kv.1 (recursive_parse nested_key value_key kv.2))
termination_by structural l => l

/-- The list comprehension of `recursive_parse`. -/
def flattenList (nested_key value_key : String) : List PValue → List PValue
  | [] => []
  | v :: rest =>
    recursive_parse nested_key value_key v :: flattenList nested_key value_key rest
termination_by structural l => l
end

/-- `XMLParser.flatten_nested_keys` (defaults `Name` and `Value` are passed
explicitly by callers): apply `recursive_parse` to the value of every parent
entry of the working structure. -/
def flatten_nested_keys (nested_key value_key : String) (parsed_data : Entries) : Entries :=
  parsed_data.map (fun kv => (kv.1, recursive_parse nested_key value_key kv.2))

/-- Inner `apply_casing` of `rename_keys`: a provided casing function is
applied, a missing one leaves the key alone. -/
def apply_casing (casing : Option (String → String)) (key : String) : String :=
  match casing with
  | some f => f key
  | none => key

/-- Python `translation_map.get(k)` for the translation dict. -/
def tmLookup (k : String) : List (String × String) → Option String
  | [] => none
  | ab :: rest => if ab.1 = k then some ab.2 else tmLookup k rest

/-- The key rewrite of `rename_keys`:
`apply_casing(translation_map.get(k.lower(), k))`.  Note the casing is
applied to the result of the lookup whether or not a translation occurred. -/
def keyFun (translation_map : List (String × String))
    (casing : Option (String → String)) (k : String) : String :=
  apply_casing casing ((tmLookup (pyLower k) translation_map).getD k)

mutual
/-- Inner `recursive_translate` of `rename_keys`. -/
def recursive_translate (translation_map : List (String × String))
    (casing : Option (String → String)) : PValue → PValue
  | .dict d => .dict (translateEntries translation_map casing d [])
  | .list l => .list (translateList translation_map casing l)
  | .str s => .str s

/-- The dict comprehension of `recursive_translate` as a fold. -/
def translateEntries (translation_map : List (String × String))
    (casing : Option (String → String)) : Entries → Entries → Entries
  | [], acc => acc
  | kv :: rest, acc =>
    translateEntries translation_map casing rest
      (dinsert acc (keyFun translation_map casing kv.1)
        (recursive_translate translation_map casing kv.2))

/-- The list comprehension of `recursive_translate`. -/
def translateList (translation_map : List (String × String))
    (casing : Option (String → String)) : List PValue → List PValue
  | [] => []
  | v :: rest =>
    recursive_translate translation_map casing v ::
      translateList translation_map casing rest
end

/-- `XMLParser.rename_keys`: apply `recursive_translate` to the value of
every parent entry of the working structure. -/
def rename_keys (translation_map : List (String × String))
    (casing : Option (String → String)) (parsed_data : Entries) : Entries :=
  parsed_data.map (fun kv => (kv.1, recursive_translate translation_map casing kv.2))

/-- ASCII model of Python `str.capitalize`: first character is uppercased,
every following character is lowercased. -/
def pyCapitalize (s : String) : String :=
  match s.data with
  | [] => ""
  | c :: rest => ⟨c.toUpper :: rest.map Char.toLower⟩

/-- The element tree of the sample document in the `__main__` block of the
module, as produced by the external XML parser.  The default namespace
`xmlns` qualifies every tag with the brace-enclosed URI.  Container elements
carry the whitespace text between their opening tag and their first child;
it is irrelevant because only leaf text is read. -/
def sampleRoot : XElem :=
  .mk "\x7bhttp://example.com\x7droot" (some "\n        ") [
    .mk "\x7bhttp://example.com\x7dheader" (some "\n            ") [
      .mk "\x7bhttp://example.com\x7dntitle" (some "Sample Title") [],
      .mk "\x7bhttp://example.com\x7ddate" (some "2025-03-13") [],
      .mk "\x7bhttp://example.com\x7dmeta" (some "\n                ") [
        .mk "\x7bhttp://example.com\x7dauthor" (some "John Doe") [],
        .mk "\x7bhttp://example.com\x7dversion" (some "1.0") []
      ]
    ],
    .mk "\x7bhttp://example.com\x7dvalues" (some "\n            ") [
      .mk "\x7bhttp://example.com\x7dprice" (some "100") [],
      .mk "\x7bhttp://example.com\x7dquantity" (some "5") [],
      .mk "\x7bhttp://example.com\x7ddetails" (some "\n                ") [
        .mk "\x7bhttp://example.com\x7dName" (some "Discount Details") [],
        .mk "\x7bhttp://example.com\x7dcurrency" (some "USD") [],
        .mk "\x7bhttp://example.com\x7ddiscount" (some "10%") []
      ],
      .mk "\x7bhttp://example.com\x7dextra" (some "\n                ") [
        .mk "\x7bhttp://example.com\x7dName" (some "Special Offer") [],
        .mk "\x7bhttp://example.com\x7dValue" (some "50% Off") []
      ]
    ]
  ]

/-- The transformation pipeline of the `__main__` block: extraction of
`header` and `values`, then `remove_keys`, `flatten_nested_keys` with the
default arguments, and `rename_keys` with `str.capitalize`. -/
def samplePipeline : Entries :=
  rename_keys [("price", "cost"), ("quantity", "amount"), ("discount", "rebate")]
    (some pyCapitalize)
    (flatten_nested_keys "Name" "Value"
      (remove_keys ["meta"]
        (parse_xml_to_dict sampleRoot ["header", "values"])))

/-- The entries of the `values` subtree of the pipeline result. -/
def valuesSubtreeEntries : Entries :=
  match dictLookup "values" samplePipeline with
  | some (.dict d) => d
  | _ => []

/-- The entries of the `header` subtree of the pipeline result. -/
def headerSubtreeEntries : Entries :=
  match dictLookup "header" samplePipeline with
  | some (.dict d) => d
  | _ => []

theorem stripNsFuel_no_brace : ∀ (fuel : Nat) (l : List Char), lbrace ∉ l →
    stripNsFuel fuel l = l := by
  intro fuel
  induction fuel with
  | zero =>
    intro l _
    cases l <;> rfl
  | succ n ih =>
    intro l h
    cases l with
    | nil => rfl
    | cons c rest =>
      have hc : ¬ c = lbrace := fun hce => h (hce ▸ List.mem_cons_self c rest)
      have hrest : lbrace ∉ rest := fun hm => h (List.mem_cons_of_mem c hm)
      simp only [stripNsFuel, if_neg hc]
      rw [ih rest hrest]

/-- Claim C2 (corrected): `strip_namespace` removes every non-overlapping
substring of the form left-brace .. first right-brace (with no newline in
between), not only a leading one.  A tag containing no left brace at all is
returned exactly as given, and the namespaced tag of the spec example
extracts to `price`.  The third conjunct documents the deletion of an inner
brace group, the behavior the original claim denied. -/
theorem strip_namespace_all_occurrences (s : String) (h : lbrace ∉ s.data) :
    strip_namespace s = s ∧
    strip_namespace "\x7bhttp://example.com\x7dprice" = "price" ∧
    strip_namespace "a\x7bb\x7dc" = "ac" := by
  refine ⟨?_, by decide, by decide⟩
  show (⟨stripNsChars s.data⟩ : String) = s
  rw [stripNsChars, stripNsFuel_no_brace _ _ h]

theorem strip_namespace_all_occurrences_witness :
    strip_namespace "price" = "price" ∧
    strip_namespace "\x7bhttp://example.com\x7dprice" = "price" ∧
    strip_namespace "a\x7bb\x7dc" = "ac" :=
  strip_namespace_all_occurrences "price" (by decide)

/-- Claim C2, counterexample to the claim as stated: the tag `a{b}c` has no
leading brace-enclosed prefix, so the claim predicts it is returned exactly
as given, yet the code deletes the inner brace group and returns `ac`. -/
theorem strip_namespace_changes_nonleading :
    strip_namespace "a\x7bb\x7dc" = "ac" ∧
    strip_namespace "a\x7bb\x7dc" ≠ "a\x7bb\x7dc" := by
  constructor
  · decide
  · decide

/-- Claim C3: with the default parameters, `flatten_nested_keys` collapses
the `extra` wrapper to the scalar entry `Special Offer => 50% Off`, and
re-keys the `details` wrapper to `Discount Details` preserving the remaining
entries. -/
theorem flatten_nested_keys_spec_examples :
    flatten_nested_keys "Name" "Value"
        [("values", .dict [("extra",
          .dict [("Name", .str "Special Offer"), ("Value", .str "50% Off")])])]
      = [("values", .dict [("Special Offer", .str "50% Off")])] ∧
    flatten_nested_keys "Name" "Value"
        [("values", .dict [("details",
          .dict [("Name", .str "Discount Details"), ("currency", .str "USD"),
                 ("discount", .str "10%")])])]
      = [("values", .dict [("Discount Details",
          .dict [("currency", .str "USD"), ("discount", .str "10%")])])] := by
  constructor
  · decide
  · decide

/-- Claim C4, counterexample to the claim as stated: after the end-to-end
pipeline the `values` subtree has no key `Discount Details` — the casing
function `str.capitalize` is applied to untranslated keys as well and
lowercases every character after the first, so the actual key is
`Discount details` (and its nested keys are `Currency` and `Rebate`). -/
theorem sample_pipeline_claimed_key_absent :
    dictLookup "Discount Details" valuesSubtreeEntries = none ∧
    dictLookup "Discount details" valuesSubtreeEntries
      = some (.dict [("Currency", .str "USD"), ("Rebate", .str "10%")]) := by
  constructor
  · decide
  · decide

/-- Claim C4 (corrected): the full result of the end-to-end pipeline on the
sample document.  The `values` subtree contains `Cost => 100`,
`Amount => 5`, `Discount details => (Currency => USD, Rebate => 10%)` and
`Special offer => 50% Off`; the `header` subtree no longer contains a
`meta` key (every key, translated or not, has passed through
`str.capitalize`). -/
theorem sample_pipeline_result :
    samplePipeline =
      [("header", .dict [("Ntitle", .str "Sample Title"),
                         ("Date", .str "2025-03-13")]),
       ("values", .dict [("Cost", .str "100"), ("Amount", .str "5"),
         ("Discount details", .dict [("Currency", .str "USD"),
                                     ("Rebate", .str "10%")]),
         ("Special offer", .str "50% Off")])] ∧
    dictLookup "meta" headerSubtreeEntries = none := by
  constructor
  · decide
  · decide

/-- Claim C10: when `flatten_nested_keys` matches a pair, the promoted value
is stored as is, without recursive flattening, so a flatten pattern nested
inside a matched value survives one call (first conjunct: the inner
`Name`/`Value` wrapper is still present verbatim in the output) and a second
call changes the result (second conjunct), hence the transform is not
idempotent in general. -/
theorem flatten_nested_keys_not_idempotent :
    flatten_nested_keys "Name" "Value"
        [("p", .dict [("a", .dict [("Name", .str "N1"),
          ("b", .dict [("Name", .str "N2"), ("Value", .str "V")])])])]
      = [("p", .dict [("N1", .dict [("b",
          .dict [("Name", .str "N2"), ("Value", .str "V")])])])] ∧
    flatten_nested_keys "Name" "Value"
        [("p", .dict [("N1", .dict [("b",
          .dict [("Name", .str "N2"), ("Value", .str "V")])])])]
      ≠ [("p", .dict [("N1", .dict [("b",
          .dict [("Name", .str "N2"), ("Value", .str "V")])])])] := by
  constructor
  · decide
  · decide

theorem containsKey_iff {k : String} {d : Entries} :
    containsKey k d = true ↔ k ∈ d.map Prod.fst := by
  simp [containsKey, List.any_eq_true, List.mem_map, beq_iff_eq]

theorem containsKey_eq_false {k : String} {d : Entries} :
    containsKey k d = false ↔ k ∉ d.map Prod.fst := by
  rw [← containsKey_iff]
  cases h : containsKey k d <;> simp

theorem containsKey_append {k : String} {a b : Entries} :
    containsKey k (a ++ b) = (containsKey k a || containsKey k b) := by
  simp [containsKey, List.any_append]

theorem dinsert_eq_append {d : Entries} {k : String} {v : PValue}
    (hc : containsKey k d = false) : dinsert d k v = d ++ [(k, v)] := by
  simp [dinsert, hc]

theorem dictLookup_append_left {k : String} {a b : Entries}
    (hc : containsKey k a = false) : dictLookup k (a ++ b) = dictLookup k b := by
  induction a with
  | nil => rfl
  | cons kv rest ih =>
    simp only [containsKey, List.any_cons, Bool.or_eq_false_iff, beq_eq_false_iff_ne,
      ne_eq] at hc
    simp only [List.cons_append, dictLookup, if_neg hc.1]
    exact ih (by simp [containsKey, hc.2])

theorem dictLookup_replace_self {k : String} {v : PValue} :
    ∀ d : Entries, containsKey k d = true →
      dictLookup k (d.map (fun kv => if kv.1 = k then (k, v) else kv)) = some v := by
  intro d
  induction d with
  | nil => intro hc; simp [containsKey] at hc
  | cons kv rest ih =>
    intro hc
    simp only [List.map_cons, dictLookup]
    by_cases hk : kv.1 = k
    · rw [if_pos hk]
      show (if (k, v).1 = k then some (k, v).2 else _) = some v
      rw [if_pos rfl]
    · rw [if_neg hk]
      show (if kv.1 = k then some kv.2 else _) = some v
      rw [if_neg hk]
      simp only [containsKey, List.any_cons, Bool.or_eq_true, beq_iff_eq] at hc
      rcases hc with hc | hc
      · exact absurd hc hk
      · exact ih hc

theorem dictLookup_replace_ne {k k2 : String} {v : PValue} (h : k2 ≠ k) :
    ∀ d : Entries,
      dictLookup k2 (d.map (fun kv => if kv.1 = k then (k, v) else kv))
        = dictLookup k2 d := by
  intro d
  induction d with
  | nil => rfl
  | cons kv rest ih =>
    simp only [List.map_cons, dictLookup]
    by_cases hk : kv.1 = k
    · rw [if_pos hk]
      show (if (k, v).1 = k2 then some (k, v).2 else _) = _
      rw [if_neg (fun he : (k, v).1 = k2 => h (by simpa using he.symm))]
      rw [if_neg (fun he : kv.1 = k2 => h (he ▸ hk))]
      exact ih
    · rw [if_neg hk]
      show (if kv.1 = k2 then some kv.2 else _) = _
      by_cases hk2 : kv.1 = k2
      · rw [if_pos hk2, if_pos hk2]
      · rw [if_neg hk2, if_neg hk2]
        exact ih

theorem dictLookup_dinsert_self {d : Entries} {k : String} {v : PValue} :
    dictLookup k (dinsert d k v) = some v := by
  by_cases hc : containsKey k d = true
  · simp only [dinsert, hc, if_true]
    exact dictLookup_replace_self d hc
  · rw [Bool.not_eq_true] at hc
    rw [dinsert_eq_append hc, dictLookup_append_left hc]
    simp [dictLookup]

theorem dictLookup_dinsert_ne {d : Entries} {k k2 : String} {v : PValue}
    (h : k2 ≠ k) : dictLookup k2 (dinsert d k v) = dictLookup k2 d := by
  by_cases hc : containsKey k d = true
  · simp only [dinsert, hc, if_true]
    exact dictLookup_replace_ne h d
  · rw [Bool.not_eq_true] at hc
    rw [dinsert_eq_append hc]
    induction d with
    | nil =>
      show dictLookup k2 [(k, v)] = dictLookup k2 []
      simp only [dictLookup]
      rw [if_neg (show ¬ (k, v).1 = k2 from fun he => h (by simpa using he.symm))]
    | cons kv rest ih =>
      simp only [containsKey, List.any_cons, Bool.or_eq_false_iff] at hc
      simp only [List.cons_append, dictLookup]
      by_cases hk2 : kv.1 = k2
      · simp [hk2]
      · simp only [if_neg hk2]
        exact ih (by simp [containsKey, hc.2])

theorem keys_dinsert_true {d : Entries} {k : String} {v : PValue}
    (hc : containsKey k d = true) :
    (dinsert d k v).map Prod.fst = d.map Prod.fst := by
  simp only [dinsert, hc, if_true, List.map_map]
  apply List.map_congr_left
  intro kv _
  by_cases hk : kv.1 = k
  · simp [hk]
  · simp [hk]

theorem keys_dinsert_false {d : Entries} {k : String} {v : PValue}
    (hc : containsKey k d = false) :
    (dinsert d k v).map Prod.fst = d.map Prod.fst ++ [k] := by
  rw [dinsert_eq_append hc]
  simp

theorem keys_nodup_dinsert {d : Entries} {k : String} {v : PValue}
    (h : (d.map Prod.fst).Nodup) : ((dinsert d k v).map Prod.fst).Nodup := by
  by_cases hc : containsKey k d = true
  · rw [keys_dinsert_true hc]
    exact h
  · rw [Bool.not_eq_true] at hc
    rw [keys_dinsert_false hc, List.nodup_append]
    refine ⟨h, List.nodup_singleton k, ?_⟩
    intro a ha hb
    rw [List.mem_singleton] at hb
    rw [containsKey_eq_false] at hc
    exact hc (hb ▸ ha)

theorem mem_dinsert {d : Entries} {k : String} {v : PValue} {kv2 : String × PValue}
    (h : kv2 ∈ dinsert d k v) : kv2 ∈ d ∨ kv2 = (k, v) := by
  by_cases hc : containsKey k d = true
  · simp only [dinsert, hc, if_true, List.mem_map] at h
    rcases h with ⟨a, ha, hae⟩
    by_cases hk : a.1 = k
    · right
      rw [if_pos hk] at hae
      exact hae.symm
    · left
      rw [if_neg hk] at hae
      exact hae ▸ ha
  · rw [Bool.not_eq_true] at hc
    rw [dinsert_eq_append hc, List.mem_append, List.mem_singleton] at h
    exact h

theorem extractParents_lookup_of_none {root : XElem} {p : String}
    (hf : (iterElems root).find? (fun x => strip_namespace x.tag == p) = none) :
    ∀ (l : List String) (acc : Entries),
      dictLookup p (extractParents root l acc) = dictLookup p acc := by
  intro l
  induction l with
  | nil => intro acc; rfl
  | cons q rest ih =>
    intro acc
    simp only [extractParents]
    cases hq : (iterElems root).find? (fun x => strip_namespace x.tag == q) with
    | none => exact ih acc
    | some e =>
      rw [ih]
      apply dictLookup_dinsert_ne
      intro hpq
      subst hpq
      rw [hf] at hq
      exact Option.noConfusion hq

theorem extractParents_lookup_of_some {root : XElem} {p : String} {e : XElem}
    (hf : (iterElems root).find? (fun x => strip_namespace x.tag == p) = some e) :
    ∀ (l : List String) (acc : Entries),
      (p ∈ l ∨ dictLookup p acc = some (parse_element e)) →
      dictLookup p (extractParents root l acc) = some (parse_element e) := by
  intro l
  induction l with
  | nil =>
    intro acc h
    rcases h with h | h
    · exact absurd h (List.not_mem_nil p)
    · exact h
  | cons q rest ih =>
    intro acc h
    simp only [extractParents]
    cases hq : (iterElems root).find? (fun x => strip_namespace x.tag == q) with
    | none =>
      apply ih
      rcases h with h | h
      · rcases List.mem_cons.mp h with h | h
        · subst h
          rw [hf] at hq
          exact Option.noConfusion hq
        · exact Or.inl h
      · exact Or.inr h
    | some e2 =>
      apply ih
      by_cases hpq : p = q
      · subst hpq
        rw [hf] at hq
        injection hq with hq
        subst hq
        exact Or.inr dictLookup_dinsert_self
      · rcases h with h | h
        · rcases List.mem_cons.mp h with h | h
          · exact absurd h hpq
          · exact Or.inl h
        · refine Or.inr ?_
          rw [dictLookup_dinsert_ne hpq]
          exact h

/-- Claim C5: for every parsed element tree and every requested parent name,
extraction stores, under that name, the parse of the first node in the full
document-order traversal whose namespace-stripped tag equals the name; when
no node matches, the lookup of that name in the result is `none` (the name
is silently absent) — and extraction is a total function, so no error is
possible. -/
theorem parse_xml_to_dict_first_match (root : XElem) (parents : List String)
    (p : String) (h : p ∈ parents) :
    dictLookup p (parse_xml_to_dict root parents)
      = Option.map parse_element
          ((iterElems root).find? (fun x => strip_namespace x.tag == p)) := by
  cases hf : (iterElems root).find? (fun x => strip_namespace x.tag == p) with
  | none => exact extractParents_lookup_of_none hf parents []
  | some e => exact extractParents_lookup_of_some hf parents [] (Or.inl h)

theorem parse_xml_to_dict_first_match_witness :
    dictLookup "values" (parse_xml_to_dict sampleRoot ["header", "values"])
      = Option.map parse_element
          ((iterElems sampleRoot).find?
            (fun x => strip_namespace x.tag == "values")) :=
  parse_xml_to_dict_first_match sampleRoot ["header", "values"] "values" (by decide)

theorem dictLookup_parse_children {tag : String} :
    ∀ (l : List XElem) (acc : Entries),
      dictLookup tag (parse_children l acc)
        = ((l.reverse.find? (fun c => strip_namespace c.tag == tag)).map
            childValue).or (dictLookup tag acc) := by
  intro l
  induction l with
  | nil => intro acc; rfl
  | cons c rest ih =>
    intro acc
    show dictLookup tag (parse_children rest (dinsert acc (strip_namespace c.tag)
      (childValue c))) = _
    rw [ih]
    rw [List.reverse_cons, List.find?_append]
    cases hr : rest.reverse.find? (fun c => strip_namespace c.tag == tag) with
    | some c2 => simp [Option.or]
    | none =>
      cases hpc : (strip_namespace c.tag == tag) with
      | true =>
        have he : strip_namespace c.tag = tag := beq_iff_eq.mp hpc
        rw [he, dictLookup_dinsert_self]
        simp [List.find?, hpc, Option.or]
      | false =>
        have hne : tag ≠ strip_namespace c.tag := by
          intro he
          rw [he] at hpc
          simp at hpc
        rw [dictLookup_dinsert_ne hne]
        simp [List.find?, hpc, Option.or]

theorem parse_children_keys_nodup :
    ∀ (l : List XElem) (acc : Entries),
      (acc.map Prod.fst).Nodup → ((parse_children l acc).map Prod.fst).Nodup := by
  intro l
  induction l with
  | nil => intro acc h; exact h
  | cons c rest ih =>
    intro acc h
    exact ih _ (keys_nodup_dinsert h)

/-- Claim C6: the dict extracted from an element maps each stripped tag to
the content (recursive parse for containers, stripped text for leaves) of
the LAST child carrying that stripped tag — so when several siblings share a
stripped tag only the last one survives; and the keys of the extracted dict
are pairwise distinct, so no list is ever formed and earlier siblings leave
no entry. -/
theorem parse_element_last_sibling_wins (e : XElem) (tag : String) :
    parse_element e = .dict (parse_children e.children []) ∧
    dictLookup tag (parse_children e.children [])
      = (e.children.reverse.find? (fun c => strip_namespace c.tag == tag)).map
          childValue ∧
    ((parse_children e.children []).map Prod.fst).Nodup := by
  refine ⟨parse_element_def e, ?_, parse_children_keys_nodup e.children [] (by simp)⟩
  rw [dictLookup_parse_children]
  cases (e.children.reverse.find? (fun c => strip_namespace c.tag == tag)) <;> rfl

theorem removeEntries_fixed (K : List String) :
    ∀ (l acc : Entries),
      (l.map Prod.fst).Nodup →
      (∀ kv ∈ l, K.contains kv.1 = false ∧ recursive_remove K kv.2 = kv.2) →
      (∀ kv ∈ l, containsKey kv.1 acc = false) →
      removeEntries K l acc = acc ++ l := by
  intro l
  induction l with
  | nil =>
    intro acc _ _ _
    simp [removeEntries]
  | cons a rest ih =>
    intro acc hnd hfix hacc
    have ha := hfix a (List.mem_cons_self a rest)
    simp only [removeEntries]
    rw [if_neg (by rw [ha.1]; exact Bool.false_ne_true)]
    rw [ha.2, dinsert_eq_append (hacc a (List.mem_cons_self a rest))]
    have heta : ((a.1, a.2) : String × PValue) = a := rfl
    rw [heta]
    rw [List.map_cons, List.nodup_cons] at hnd
    rw [ih (acc ++ [a]) hnd.2 (fun kv hm => hfix kv (List.mem_cons_of_mem a hm)) ?_]
    · rw [← List.append_cons]
    · intro kv hm
      rw [containsKey_append, Bool.or_eq_false_iff]
      refine ⟨hacc kv (List.mem_cons_of_mem a hm), ?_⟩
      have hne : a.1 ≠ kv.1 := by
        intro he
        refine hnd.1 ?_
        rw [he]
        exact List.mem_map_of_mem Prod.fst hm
      simp [containsKey, hne]

theorem removeEntries_out (K : List String) :
    ∀ (l acc : Entries),
      (∀ kv ∈ l, recursive_remove K (recursive_remove K kv.2)
        = recursive_remove K kv.2) →
      (acc.map Prod.fst).Nodup →
      (∀ kv ∈ acc, K.contains kv.1 = false ∧ recursive_remove K kv.2 = kv.2) →
      ((removeEntries K l acc).map Prod.fst).Nodup ∧
        ∀ kv ∈ removeEntries K l acc,
          K.contains kv.1 = false ∧ recursive_remove K kv.2 = kv.2 := by
  intro l
  induction l with
  | nil =>
    intro acc _ hnd hprops
    exact ⟨hnd, hprops⟩
  | cons a rest ih =>
    intro acc hfix hnd hprops
    simp only [removeEntries]
    by_cases hK : K.contains a.1 = true
    · rw [if_pos hK]
      exact ih acc (fun kv hm => hfix kv (List.mem_cons_of_mem a hm)) hnd hprops
    · rw [if_neg hK]
      refine ih _ (fun kv hm => hfix kv (List.mem_cons_of_mem a hm))
        (keys_nodup_dinsert hnd) ?_
      intro kv hm
      rcases mem_dinsert hm with hm | hm
      · exact hprops kv hm
      · subst hm
        rw [Bool.not_eq_true] at hK
        exact ⟨hK, hfix a (List.mem_cons_self a rest)⟩

theorem recursive_remove_idem (K : List String) :
    ∀ v, recursive_remove K (recursive_remove K v) = recursive_remove K v := by
  intro v
  induction v using PValue.inductionOn with
  | hs s => rfl
  | hl l ih =>
    show recursive_remove K (.list (removeList K l)) = .list (removeList K l)
    simp only [recursive_remove, PValue.list.injEq]
    induction l with
    | nil => rfl
    | cons v rest ihl =>
      simp only [removeList, List.cons.injEq]
      exact ⟨ih v (List.mem_cons_self v rest),
        ihl (fun w hw => ih w (List.mem_cons_of_mem v hw))⟩
  | hd d ih =>
    show recursive_remove K (.dict (removeEntries K d [])) = .dict (removeEntries K d [])
    simp only [recursive_remove, PValue.dict.injEq]
    obtain ⟨hnd, hprops⟩ := removeEntries_out K d [] ih (by simp) (by simp)
    have := removeEntries_fixed K (removeEntries K d []) [] hnd hprops
      (fun kv _ => rfl)
    simpa using this

/-- Claim C7: `remove_keys` is idempotent — applying it twice with the same
key set yields the same working structure as applying it once. -/
theorem remove_keys_idempotent (K : List String) (ws : Entries) :
    remove_keys K (remove_keys K ws) = remove_keys K ws := by
  simp only [remove_keys, List.map_map]
  apply List.map_congr_left
  intro kv _
  show (kv.1, recursive_remove K (recursive_remove K kv.2))
    = (kv.1, recursive_remove K kv.2)
  rw [recursive_remove_idem]

theorem translateEntries_eq_map (tm : List (String × String))
    (casing : Option (String → String)) :
    ∀ (l acc : Entries),
      (l.map (fun kv => keyFun tm casing kv.1)).Nodup →
      (∀ kv ∈ l, containsKey (keyFun tm casing kv.1) acc = false) →
      translateEntries tm casing l acc
        = acc ++ l.map (fun kv =>
            (keyFun tm casing kv.1, recursive_translate tm casing kv.2)) := by
  intro l
  induction l with
  | nil =>
    intro acc _ _
    simp [translateEntries]
  | cons a rest ih =>
    intro acc hnd hacc
    simp only [translateEntries]
    rw [dinsert_eq_append (hacc a (List.mem_cons_self a rest))]
    rw [List.map_cons, List.nodup_cons] at hnd
    rw [ih (acc ++ [(keyFun tm casing a.1, recursive_translate tm casing a.2)])
      hnd.2 ?_]
    · simp
    · intro kv hm
      rw [containsKey_append, Bool.or_eq_false_iff]
      refine ⟨hacc kv (List.mem_cons_of_mem a hm), ?_⟩
      have hne : keyFun tm casing a.1 ≠ keyFun tm casing kv.1 := by
        intro he
        refine hnd.1 ?_
        rw [he]
        exact List.mem_map_of_mem (fun kv => keyFun tm casing kv.1) hm
      simp [containsKey, hne]

/-- Keys of an association list are pairwise distinct (Boolean form). -/
def keysNodupB : Entries → Bool
  | [] => true
  | kv :: rest => !(containsKey kv.1 rest) && keysNodupB rest

mutual
/-- Every dict inside the value has pairwise distinct keys — the invariant
of every structure a Python dict can hold. -/
def nodupKeysB : PValue → Bool
  | .str _ => true
  | .list l => nodupKeysListB l
  | .dict d => keysNodupB d && nodupKeysEntriesB d
termination_by structural v => v

def nodupKeysListB : List PValue → Bool
  | [] => true
  | v :: rest => nodupKeysB v && nodupKeysListB rest
termination_by structural l => l

def nodupKeysEntriesB : Entries → Bool
  | [] => true
  | kv :: rest => nodupKeysB kv.2 && nodupKeysEntriesB rest
termination_by structural l => l
end

theorem keysNodupB_iff : ∀ d : Entries,
    keysNodupB d = true ↔ (d.map Prod.fst).Nodup := by
  intro d
  induction d with
  | nil => simp [keysNodupB]
  | cons kv rest ih =>
    simp only [keysNodupB, Bool.and_eq_true, Bool.not_eq_true', List.map_cons,
      List.nodup_cons]
    rw [ih]
    constructor
    · rintro ⟨h1, h2⟩
      exact ⟨containsKey_eq_false.mp h1, h2⟩
    · rintro ⟨h1, h2⟩
      exact ⟨containsKey_eq_false.mpr h1, h2⟩

theorem nodupKeysEntriesB_values : ∀ {d : Entries},
    nodupKeysEntriesB d = true → ∀ kv ∈ d, nodupKeysB kv.2 = true := by
  intro d
  induction d with
  | nil =>
    intro _ kv hm
    exact absurd hm (List.not_mem_nil kv)
  | cons a rest ih =>
    intro h kv hm
    simp only [nodupKeysEntriesB, Bool.and_eq_true] at h
    rcases List.mem_cons.mp hm with hm | hm
    · exact hm ▸ h.1
    · exact ih h.2 kv hm

theorem translateList_nil_none_fix (l : List PValue)
    (ih : ∀ v ∈ l, nodupKeysB v = true → recursive_translate [] none v = v)
    (h : nodupKeysListB l = true) : translateList [] none l = l := by
  induction l with
  | nil => rfl
  | cons v rest ihl =>
    simp only [nodupKeysListB, Bool.and_eq_true] at h
    simp only [translateList, List.cons.injEq]
    exact ⟨ih v (List.mem_cons_self v rest) h.1,
      ihl (fun w hw => ih w (List.mem_cons_of_mem v hw)) h.2⟩

theorem recursive_translate_nil_none_fix :
    ∀ v, nodupKeysB v = true → recursive_translate [] none v = v := by
  intro v
  induction v using PValue.inductionOn with
  | hs s => intro _; rfl
  | hl l ih =>
    intro h
    show PValue.list (translateList [] none l) = .list l
    rw [translateList_nil_none_fix l ih h]
  | hd d ih =>
    intro h
    have hk : keysNodupB d = true ∧ nodupKeysEntriesB d = true := by
      simpa [nodupKeysB, Bool.and_eq_true] using h
    show PValue.dict (translateEntries [] none d []) = .dict d
    simp only [PValue.dict.injEq]
    rw [translateEntries_eq_map [] none d [] ?_ (fun kv _ => rfl)]
    · simp only [List.nil_append]
      have hfix : ∀ kv ∈ d,
          ((keyFun [] none kv.1, recursive_translate [] none kv.2) : String × PValue)
            = kv := by
        intro kv hm
        have hv := nodupKeysEntriesB_values hk.2 kv hm
        show ((kv.1, recursive_translate [] none kv.2) : String × PValue) = kv
        rw [ih kv hm hv]
      calc d.map (fun kv => (keyFun [] none kv.1, recursive_translate [] none kv.2))
          = d.map id := List.map_congr_left hfix
        _ = d := List.map_id d
    · have he : (d.map (fun kv => keyFun [] none kv.1)) = d.map Prod.fst :=
        List.map_congr_left (fun kv _ => rfl)
      rw [he]
      exact (keysNodupB_iff d).mp hk.1

/-- Claim C8: `rename_keys` invoked with an empty translation map (and the
default absent casing) is a no-op on every working structure whose dicts
have pairwise distinct keys at every depth — the invariant of structures
held in Python dicts. -/
theorem rename_keys_empty_map_noop (ws : Entries)
    (h : ∀ kv ∈ ws, nodupKeysB kv.2 = true) :
    rename_keys [] none ws = ws := by
  simp only [rename_keys]
  have hfix : ∀ kv ∈ ws,
      ((kv.1, recursive_translate [] none kv.2) : String × PValue) = kv := by
    intro kv hm
    rw [recursive_translate_nil_none_fix kv.2 (h kv hm)]
  calc ws.map (fun kv => (kv.1, recursive_translate [] none kv.2))
      = ws.map id := List.map_congr_left hfix
    _ = ws := List.map_id ws

theorem rename_keys_empty_map_noop_witness :
    rename_keys [] none
        [("header", PValue.dict [("ntitle", PValue.str "Sample Title"),
          ("meta", PValue.dict [("author", PValue.str "John Doe")])])]
      = [("header", PValue.dict [("ntitle", PValue.str "Sample Title"),
          ("meta", PValue.dict [("author", PValue.str "John Doe")])])] :=
  rename_keys_empty_map_noop _ (by decide)

/-- Claim C1 (corrected): `rename_keys` applies the provided casing function
to the resulting key of EVERY pair — to the mapped key when the lowercase
form of the original key is found in the translation map, and to the
original key itself otherwise; only without a casing function is an
untranslated key kept verbatim.  Stated for a dict whose rewritten keys are
pairwise distinct (the no-collision situation): every entry is re-keyed by
`apply_casing casing (translation_map.get(lower(k), k))`, in order, with the
value rewritten recursively. -/
theorem rename_keys_applies_casing_always (tm : List (String × String))
    (casing : Option (String → String)) (d : Entries)
    (hnd : (d.map (fun kv =>
      apply_casing casing ((tmLookup (pyLower kv.1) tm).getD kv.1))).Nodup) :
    recursive_translate tm casing (.dict d)
      = .dict (d.map (fun kv =>
          (apply_casing casing ((tmLookup (pyLower kv.1) tm).getD kv.1),
           recursive_translate tm casing kv.2))) := by
  show PValue.dict (translateEntries tm casing d []) = _
  simp only [PValue.dict.injEq]
  have h1 := translateEntries_eq_map tm casing d [] hnd (fun kv _ => rfl)
  rw [h1]
  rfl

theorem rename_keys_applies_casing_always_witness :
    recursive_translate [("price", "cost")] (some pyLower)
        (.dict [("ABC", PValue.str "v")])
      = .dict ([("ABC", PValue.str "v")].map (fun kv =>
          (apply_casing (some pyLower)
            ((tmLookup (pyLower kv.1) [("price", "cost")]).getD kv.1),
           recursive_translate [("price", "cost")] (some pyLower) kv.2))) :=
  rename_keys_applies_casing_always [("price", "cost")] (some pyLower)
    [("ABC", PValue.str "v")] (by decide)

/-- Claim C1, counterexample to the claim as stated: with translation map
`price => cost` and casing `str.lower`, the key `ABC` has no translation
(its lowercase form `abc` is not in the map), so the claim predicts it is
kept verbatim with its original casing untouched; the code applies the
casing function to it anyway and produces the key `abc`. -/
theorem rename_keys_cases_untranslated_key :
    rename_keys [("price", "cost")] (some pyLower)
        [("p", PValue.dict [("ABC", PValue.str "v")])]
      = [("p", PValue.dict [("abc", PValue.str "v")])] ∧
    rename_keys [("price", "cost")] (some pyLower)
        [("p", PValue.dict [("ABC", PValue.str "v")])]
      ≠ [("p", PValue.dict [("ABC", PValue.str "v")])] := by
  constructor
  · decide
  · decide

mutual
/-- All string leaves of a value, in order. -/
def leaves : PValue → List String
  | .str s => [s]
  | .list l => leavesList l
  | .dict d => leavesEntries d
termination_by structural v => v

def leavesList : List PValue → List String
  | [] => []
  | v :: rest => leaves v ++ leavesList rest
termination_by structural l => l

def leavesEntries : Entries → List String
  | [] => []
  | kv :: rest => leaves kv.2 ++ leavesEntries rest
termination_by structural l => l
end

theorem leavesEntries_append {a b : Entries} :
    leavesEntries (a ++ b) = leavesEntries a ++ leavesEntries b := by
  induction a with
  | nil => rfl
  | cons kv rest ih =>
    show leaves kv.2 ++ leavesEntries (rest ++ b)
      = (leaves kv.2 ++ leavesEntries rest) ++ leavesEntries b
    rw [ih, List.append_assoc]

theorem leaves_replace {k : String} {v : PValue} {s : String} :
    ∀ acc : Entries,
      s ∈ leavesEntries (acc.map (fun kv => if kv.1 = k then (k, v) else kv)) →
      s ∈ leavesEntries acc ∨ s ∈ leaves v := by
  intro acc
  induction acc with
  | nil => intro h; exact absurd h (List.not_mem_nil s)
  | cons kv rest ih =>
    intro h
    simp only [List.map_cons, leavesEntries, List.mem_append] at h
    rcases h with h | h
    · by_cases hk : kv.1 = k
      · rw [if_pos hk] at h
        exact Or.inr h
      · rw [if_neg hk] at h
        exact Or.inl (by simp only [leavesEntries, List.mem_append]; exact Or.inl h)
    · rcases ih h with h | h
      · exact Or.inl (by simp only [leavesEntries, List.mem_append]; exact Or.inr h)
      · exact Or.inr h

theorem leavesEntries_dinsert {acc : Entries} {k : String} {v : PValue} {s : String}
    (h : s ∈ leavesEntries (dinsert acc k v)) :
    s ∈ leavesEntries acc ∨ s ∈ leaves v := by
  by_cases hc : containsKey k acc = true
  · rw [dinsert, if_pos hc] at h
    exact leaves_replace acc h
  · rw [Bool.not_eq_true] at hc
    rw [dinsert_eq_append hc, leavesEntries_append, List.mem_append] at h
    rcases h with h | h
    · exact Or.inl h
    · simp only [leavesEntries, List.append_nil] at h
      exact Or.inr (by simpa using h)

theorem mem_eraseKey {k : String} {kv : String × PValue} :
    ∀ d : Entries, kv ∈ eraseKey k d → kv ∈ d := by
  intro d
  induction d with
  | nil => intro h; exact h
  | cons a rest ih =>
    intro h
    simp only [eraseKey] at h
    by_cases ha : a.1 = k
    · rw [if_pos ha] at h
      exact List.mem_cons_of_mem a h
    · rw [if_neg ha] at h
      rcases List.mem_cons.mp h with h | h
      · exact h ▸ List.mem_cons_self a rest
      · exact List.mem_cons_of_mem a (ih h)

theorem leavesEntries_eraseKey {k : String} {s : String} :
    ∀ d : Entries, s ∈ leavesEntries (eraseKey k d) → s ∈ leavesEntries d := by
  intro d
  induction d with
  | nil => intro h; exact h
  | cons a rest ih =>
    intro h
    simp only [eraseKey] at h
    by_cases ha : a.1 = k
    · rw [if_pos ha] at h
      simp only [leavesEntries, List.mem_append]
      exact Or.inr h
    · rw [if_neg ha] at h
      simp only [leavesEntries, List.mem_append] at h ⊢
      rcases h with h | h
      · exact Or.inl h
      · exact Or.inr (ih h)

theorem leavesEntries_of_mem {kv : String × PValue} {s : String}
    (hs : s ∈ leaves kv.2) : ∀ d : Entries, kv ∈ d → s ∈ leavesEntries d := by
  intro d
  induction d with
  | nil => intro h; exact absurd h (List.not_mem_nil kv)
  | cons a rest ih =>
    intro h
    simp only [leavesEntries, List.mem_append]
    rcases List.mem_cons.mp h with h | h
    · exact Or.inl (h ▸ hs)
    · exact Or.inr (ih h)

theorem leaves_removeEntries {K : List String} {s : String} :
    ∀ (l acc : Entries),
      s ∈ leavesEntries (removeEntries K l acc) →
      s ∈ leavesEntries acc ∨
        ∃ kv ∈ l, s ∈ leaves (recursive_remove K kv.2) := by
  intro l
  induction l with
  | nil =>
    intro acc h
    exact Or.inl h
  | cons a rest ih =>
    intro acc h
    simp only [removeEntries] at h
    by_cases hK : K.contains a.1 = true
    · rw [if_pos hK] at h
      rcases ih acc h with h | ⟨kv, hm, h2⟩
      · exact Or.inl h
      · exact Or.inr ⟨kv, List.mem_cons_of_mem a hm, h2⟩
    · rw [if_neg hK] at h
      rcases ih _ h with h | ⟨kv, hm, h2⟩
      · rcases leavesEntries_dinsert h with h | h
        · exact Or.inl h
        · exact Or.inr ⟨a, List.mem_cons_self a rest, h⟩
      · exact Or.inr ⟨kv, List.mem_cons_of_mem a hm, h2⟩

theorem leaves_removeList {K : List String} {s : String} :
    ∀ l : List PValue,
      s ∈ leavesList (removeList K l) →
      ∃ v ∈ l, s ∈ leaves (recursive_remove K v) := by
  intro l
  induction l with
  | nil => intro h; exact absurd h (List.not_mem_nil s)
  | cons v rest ih =>
    intro h
    simp only [removeList, leavesList, List.mem_append] at h
    rcases h with h | h
    · exact ⟨v, List.mem_cons_self v rest, h⟩
    · obtain ⟨w, hm, h2⟩ := ih h
      exact ⟨w, List.mem_cons_of_mem v hm, h2⟩

theorem leaves_recursive_remove (K : List String) :
    ∀ (v : PValue) (s : String),
      s ∈ leaves (recursive_remove K v) → s ∈ leaves v := by
  intro v
  induction v using PValue.inductionOn with
  | hs s2 =>
    intro s h
    exact h
  | hl l ih =>
    intro s h
    obtain ⟨w, hm, h2⟩ := leaves_removeList l h
    show s ∈ leavesList l
    have : s ∈ leaves w := ih w hm s h2
    clear h h2
    induction l with
    | nil => exact absurd hm (List.not_mem_nil w)
    | cons v2 rest ihl =>
      simp only [leavesList, List.mem_append]
      rcases List.mem_cons.mp hm with hm2 | hm2
      · exact Or.inl (hm2 ▸ this)
      · exact Or.inr (ihl (fun u hu => ih u (List.mem_cons_of_mem v2 hu)) hm2)
  | hd d ih =>
    intro s h
    rcases leaves_removeEntries d [] h with h | ⟨kv, hm, h2⟩
    · exact absurd h (List.not_mem_nil s)
    · exact leavesEntries_of_mem (ih kv hm s h2) d hm

theorem leaves_translateEntries {tm : List (String × String)}
    {casing : Option (String → String)} {s : String} :
    ∀ (l acc : Entries),
      s ∈ leavesEntries (translateEntries tm casing l acc) →
      s ∈ leavesEntries acc ∨
        ∃ kv ∈ l, s ∈ leaves (recursive_translate tm casing kv.2) := by
  intro l
  induction l with
  | nil =>
    intro acc h
    exact Or.inl h
  | cons a rest ih =>
    intro acc h
    simp only [translateEntries] at h
    rcases ih _ h with h | ⟨kv, hm, h2⟩
    · rcases leavesEntries_dinsert h with h | h
      · exact Or.inl h
      · exact Or.inr ⟨a, List.mem_cons_self a rest, h⟩
    · exact Or.inr ⟨kv, List.mem_cons_of_mem a hm, h2⟩

theorem leaves_translateList {tm : List (String × String)}
    {casing : Option (String → String)} {s : String} :
    ∀ l : List PValue,
      s ∈ leavesList (translateList tm casing l) →
      ∃ v ∈ l, s ∈ leaves (recursive_translate tm casing v) := by
  intro l
  induction l with
  | nil => intro h; exact absurd h (List.not_mem_nil s)
  | cons v rest ih =>
    intro h
    simp only [translateList, leavesList, List.mem_append] at h
    rcases h with h | h
    · exact ⟨v, List.mem_cons_self v rest, h⟩
    · obtain ⟨w, hm, h2⟩ := ih h
      exact ⟨w, List.mem_cons_of_mem v hm, h2⟩

theorem leaves_mem_of_mem_list {s : String} {w : PValue} (hs : s ∈ leaves w) :
    ∀ l : List PValue, w ∈ l → s ∈ leavesList l := by
  intro l
  induction l with
  | nil => intro h; exact absurd h (List.not_mem_nil w)
  | cons v rest ih =>
    intro h
    simp only [leavesList, List.mem_append]
    rcases List.mem_cons.mp h with h | h
    · exact Or.inl (h ▸ hs)
    · exact Or.inr (ih h)

theorem leaves_recursive_translate (tm : List (String × String))
    (casing : Option (String → String)) :
    ∀ (v : PValue) (s : String),
      s ∈ leaves (recursive_translate tm casing v) → s ∈ leaves v := by
  intro v
  induction v using PValue.inductionOn with
  | hs s2 =>
    intro s h
    exact h
  | hl l ih =>
    intro s h
    obtain ⟨w, hm, h2⟩ := leaves_translateList l h
    exact leaves_mem_of_mem_list (ih w hm s h2) l hm
  | hd d ih =>
    intro s h
    rcases leaves_translateEntries d [] h with h | ⟨kv, hm, h2⟩
    · exact absurd h (List.not_mem_nil s)
    · exact leavesEntries_of_mem (ih kv hm s h2) d hm

theorem leaves_flattenEntries {nk vk : String} {s : String} :
    ∀ (l acc : Entries),
      s ∈ leavesEntries (flattenEntries nk vk l acc) →
      s ∈ leavesEntries acc ∨
        ∃ kv ∈ l, s ∈ leaves kv.2 ∨ s ∈ leaves (recursive_parse nk vk kv.2) := by
  intro l
  induction l with
  | nil =>
    intro acc h
    exact Or.inl h
  | cons a rest ih =>
    obtain ⟨k, v⟩ := a
    intro acc h
    cases v with
    | str s2 =>
      simp only [flattenEntries] at h
      rcases ih _ h with h | ⟨kv, hm, h2⟩
      · rcases leavesEntries_dinsert h with h | h
        · exact Or.inl h
        · exact Or.inr ⟨(k, .str s2), List.mem_cons_self _ rest, Or.inr h⟩
      · exact Or.inr ⟨kv, List.mem_cons_of_mem _ hm, h2⟩
    | list l2 =>
      simp only [flattenEntries] at h
      rcases ih _ h with h | ⟨kv, hm, h2⟩
      · rcases leavesEntries_dinsert h with h | h
        · exact Or.inl h
        · exact Or.inr ⟨(k, .list l2), List.mem_cons_self _ rest, Or.inr h⟩
      · exact Or.inr ⟨kv, List.mem_cons_of_mem _ hm, h2⟩
    | dict vd =>
      simp only [flattenEntries] at h
      cases hlk : dictLookup nk vd with
      | none =>
        rw [hlk] at h
        rcases ih _ h with h | ⟨kv, hm, h2⟩
        · rcases leavesEntries_dinsert h with h | h
          · exact Or.inl h
          · exact Or.inr ⟨(k, .dict vd), List.mem_cons_self _ rest, Or.inr h⟩
        · exact Or.inr ⟨kv, List.mem_cons_of_mem _ hm, h2⟩
      | some w =>
        rw [hlk] at h
        cases w with
        | list l2 =>
          rcases ih _ h with h | ⟨kv, hm, h2⟩
          · rcases leavesEntries_dinsert h with h | h
            · exact Or.inl h
            · exact Or.inr ⟨(k, .dict vd), List.mem_cons_self _ rest, Or.inl h⟩
          · exact Or.inr ⟨kv, List.mem_cons_of_mem _ hm, h2⟩
        | dict d2 =>
          rcases ih _ h with h | ⟨kv, hm, h2⟩
          · rcases leavesEntries_dinsert h with h | h
            · exact Or.inl h
            · exact Or.inr ⟨(k, .dict vd), List.mem_cons_self _ rest, Or.inl h⟩
          · exact Or.inr ⟨kv, List.mem_cons_of_mem _ hm, h2⟩
        | str newKey =>
          have hsub : ∀ u, s ∈ leaves u →
              (∃ kv1, eraseKey nk vd = [kv1] ∧ u = kv1.2) ∨
                u = PValue.dict (eraseKey nk vd) →
              s ∈ leavesEntries vd := by
            intro u hu hcase
            rcases hcase with ⟨kv1, he, hq⟩ | hq
            · have hm1 : kv1 ∈ eraseKey nk vd := by
                rw [he]
                exact List.mem_cons_self kv1 []
              exact leavesEntries_of_mem (hq ▸ hu) vd (mem_eraseKey _ hm1)
            · subst hq
              exact leavesEntries_eraseKey _ hu
          rcases herase : eraseKey nk vd with _ | ⟨kv1, rem⟩
          · rw [herase] at h
            rcases ih _ h with h | ⟨kv, hm, h2⟩
            · rcases leavesEntries_dinsert h with h | h
              · exact Or.inl h
              · refine Or.inr ⟨(k, .dict vd), List.mem_cons_self _ rest, Or.inl ?_⟩
                show s ∈ leavesEntries vd
                have := hsub (PValue.dict []) h (Or.inr (by rw [herase]))
                exact this
            · exact Or.inr ⟨kv, List.mem_cons_of_mem _ hm, h2⟩
          · cases rem with
            | cons kv2 rem2 =>
              rw [herase] at h
              rcases ih _ h with h | ⟨kv, hm, h2⟩
              · rcases leavesEntries_dinsert h with h | h
                · exact Or.inl h
                · refine Or.inr ⟨(k, .dict vd), List.mem_cons_self _ rest, Or.inl ?_⟩
                  show s ∈ leavesEntries vd
                  exact hsub (PValue.dict (eraseKey nk vd)) (by rw [herase]; exact h)
                    (Or.inr rfl)
              · exact Or.inr ⟨kv, List.mem_cons_of_mem _ hm, h2⟩
            | nil =>
              rw [herase] at h
              have h3 : s ∈ leavesEntries (if kv1.1 = vk
                  then flattenEntries nk vk rest (dinsert acc newKey kv1.2)
                  else flattenEntries nk vk rest
                    (dinsert acc newKey (PValue.dict [kv1]))) := h
              clear h
              by_cases hvk : kv1.1 = vk
              · rw [if_pos hvk] at h3
                have h := h3
                rcases ih _ h with h | ⟨kv, hm, h2⟩
                · rcases leavesEntries_dinsert h with h | h
                  · exact Or.inl h
                  · refine Or.inr ⟨(k, .dict vd), List.mem_cons_self _ rest, Or.inl ?_⟩
                    show s ∈ leavesEntries vd
                    exact hsub kv1.2 h (Or.inl ⟨kv1, herase, rfl⟩)
                · exact Or.inr ⟨kv, List.mem_cons_of_mem _ hm, h2⟩
              · rw [if_neg hvk] at h3
                have h := h3
                rcases ih _ h with h | ⟨kv, hm, h2⟩
                · rcases leavesEntries_dinsert h with h | h
                  · exact Or.inl h
                  · refine Or.inr ⟨(k, .dict vd), List.mem_cons_self _ rest, Or.inl ?_⟩
                    show s ∈ leavesEntries vd
                    exact hsub (PValue.dict [kv1]) h (Or.inr (by rw [herase]))
                · exact Or.inr ⟨kv, List.mem_cons_of_mem _ hm, h2⟩

theorem leaves_flattenList {nk vk : String} {s : String} :
    ∀ l : List PValue,
      s ∈ leavesList (flattenList nk vk l) →
      ∃ v ∈ l, s ∈ leaves (recursive_parse nk vk v) := by
  intro l
  induction l with
  | nil => intro h; exact absurd h (List.not_mem_nil s)
  | cons v rest ih =>
    intro h
    simp only [flattenList, leavesList, List.mem_append] at h
    rcases h with h | h
    · exact ⟨v, List.mem_cons_self v rest, h⟩
    · obtain ⟨w, hm, h2⟩ := ih h
      exact ⟨w, List.mem_cons_of_mem v hm, h2⟩

theorem leaves_recursive_parse (nk vk : String) :
    ∀ (v : PValue) (s : String),
      s ∈ leaves (recursive_parse nk vk v) → s ∈ leaves v := by
  intro v
  induction v using PValue.inductionOn with
  | hs s2 =>
    intro s h
    exact h
  | hl l ih =>
    intro s h
    obtain ⟨w, hm, h2⟩ := leaves_flattenList l h
    exact leaves_mem_of_mem_list (ih w hm s h2) l hm
  | hd d ih =>
    intro s h
    rcases leaves_flattenEntries d [] h with h | ⟨kv, hm, h2⟩
    · exact absurd h (List.not_mem_nil s)
    · rcases h2 with h2 | h2
      · exact leavesEntries_of_mem h2 d hm
      · exact leavesEntries_of_mem (ih kv hm s h2) d hm

theorem leavesEntries_map_value {g : PValue → PValue}
    (hg : ∀ (v : PValue) (s : String), s ∈ leaves (g v) → s ∈ leaves v) :
    ∀ (ws : Entries) (s : String),
      s ∈ leavesEntries (ws.map (fun kv => (kv.1, g kv.2))) →
      s ∈ leavesEntries ws := by
  intro ws
  induction ws with
  | nil => intro s h; exact h
  | cons kv rest ih =>
    intro s h
    simp only [List.map_cons, leavesEntries, List.mem_append] at h ⊢
    rcases h with h | h
    · exact Or.inl (hg kv.2 s h)
    · exact Or.inr (ih s h)

/-- Claim C9: every transform preserves the shape invariant of the working
structure.  The list of top-level parent names is unchanged by
`remove_keys`, `flatten_nested_keys` and `rename_keys` (so each parent name
still maps to a value of the recursive dict/list/string shape — totality of
the transforms over `PValue` gives the shape itself), and no transform
introduces a leaf that was not already a string leaf of the input: every
string leaf of the output occurs among the string leaves of the input. -/
theorem transforms_preserve_shape (K : List String) (nk vk : String)
    (tm : List (String × String)) (casing : Option (String → String))
    (ws : Entries) :
    (remove_keys K ws).map Prod.fst = ws.map Prod.fst ∧
    (flatten_nested_keys nk vk ws).map Prod.fst = ws.map Prod.fst ∧
    (rename_keys tm casing ws).map Prod.fst = ws.map Prod.fst ∧
    (∀ s, s ∈ leavesEntries (remove_keys K ws) → s ∈ leavesEntries ws) ∧
    (∀ s, s ∈ leavesEntries (flatten_nested_keys nk vk ws) → s ∈ leavesEntries ws) ∧
    (∀ s, s ∈ leavesEntries (rename_keys tm casing ws) → s ∈ leavesEntries ws) := by
  refine ⟨?_, ?_, ?_, ?_, ?_, ?_⟩
  · simp only [remove_keys, List.map_map]
    exact List.map_congr_left (fun kv _ => rfl)
  · simp only [flatten_nested_keys, List.map_map]
    exact List.map_congr_left (fun kv _ => rfl)
  · simp only [rename_keys, List.map_map]
    exact List.map_congr_left (fun kv _ => rfl)
  · exact fun s h => leavesEntries_map_value (leaves_recursive_remove K) ws s h
  · exact fun s h => leavesEntries_map_value (leaves_recursive_parse nk vk) ws s h
  · exact fun s h =>
      leavesEntries_map_value (leaves_recursive_translate tm casing) ws s h

theorem transforms_preserve_shape_witness :
    ("v" : String) ∈ leavesEntries
      [("p", PValue.dict [("a", PValue.str "v"), ("meta", PValue.str "w")])] :=
  (transforms_preserve_shape ["meta"] "Name" "Value" [] none
    [("p", PValue.dict [("a", PValue.str "v"), ("meta", PValue.str "w")])]).2.2.2.1
    "v" (by decide)
